import Mathlib

/-!
Verification development for the MyISAM transaction module:
saga orchestration with distributed locks, reverse compensation,
idempotent enqueue and dead-letter classification.

The definitions below are a shallow embedding of the TypeScript sources:
* `src/transaction/services/distributed-lock.service.ts`
* `src/transaction/services/compensation.service.ts`
* `src/transaction/simple-transaction.consumer.ts`
* `src/transaction/simple-transaction-manager.ts`

The Redis string keyspace is modelled as a function from keys to optional
entries (value plus the TTL it was set with); redis commands touched by the
lock and idempotency code (`SET ... EX ttl NX`, `GET`, `DEL` inside the Lua
release script) are modelled one-to-one.  A possible exception thrown by a
`redis.set` call during lock acquisition is modelled by an optional fault
`Option (Nat × JsError)`: the n-th `set` call of the acquisition raises the
given error instead of executing.
-/

/-- A JavaScript `Error` as observed by the module: `message` and `name`. -/
structure JsError where
  message : String
  name : String
deriving DecidableEq, Repr

/-- A Redis string entry: the stored value and the TTL (seconds) it was set with. -/
structure KVEntry where
  value : String
  ttl : Nat
deriving DecidableEq, Repr

/-- The Redis string keyspace. -/
def KVStore : Type := String → Option KVEntry

/-- The empty keyspace. -/
def emptyStore : KVStore := fun _ => none

/-- Overwrite one key. -/
def storeSet (s : KVStore) (k : String) (e : KVEntry) : KVStore :=
  fun k' => if k' = k then some e else s k'

/-- Delete one key (`DEL`). -/
def storeDel (s : KVStore) (k : String) : KVStore :=
  fun k' => if k' = k then none else s k'

/-- The value currently stored at a key (`GET`). -/
def valueAt (s : KVStore) (k : String) : Option String :=
  (s k).map KVEntry.value

/-- `redis.set(key, value, 'EX', ttl, 'NX')`: set only when the key is absent;
returns the store and whether the set happened. -/
def setNX (s : KVStore) (k v : String) (ttl : Nat) : KVStore × Bool :=
  match s k with
  | some _ => (s, false)
  | none => (storeSet s k ⟨v, ttl⟩, true)

/-- A resource identifier: `type`, `id` (stringified) and optional `action`
discriminator, as in `types/transaction.types.ts` usage. -/
structure ResourceIdentifier where
  type : String
  id : String
  action : Option String
deriving DecidableEq, Repr

/-- `DistributedLockService.generateResourceLockKeys`: derive the lock key
`tx_lock:<type>_<id>[_<action>]` for every resource, in input order. -/
def generateResourceLockKeys (resourceIdentifiers : List ResourceIdentifier) : List String :=
  resourceIdentifiers.map (fun resource =>
    let act := match resource.action with
      | some a => "_" ++ a
      | none => ""
    "tx_lock:" ++ resource.type ++ "_" ++ resource.id ++ act)

/-- The loop of the Lua script run by `releaseLockInternal`: for each key,
if `GET key` equals the jobId then `DEL key` and count it. -/
def relGo (s : KVStore) (keys : List String) (jobId : String) (cnt : Nat) : KVStore × Nat :=
  match keys with
  | [] => (s, cnt)
  | k :: rest =>
    match s k with
    | some e =>
      if e.value = jobId then relGo (storeDel s k) rest jobId (cnt + 1)
      else relGo s rest jobId cnt
    | none => relGo s rest jobId cnt

/-- `DistributedLockService.releaseLockInternal`: owner-verified delete of the
given keys, returning the store and the deleted count. -/
def releaseLockInternal (s : KVStore) (lockKeys : List String) (jobId : String) : KVStore × Nat :=
  relGo s lockKeys jobId 0

/-- `DistributedLockService.releaseLock`. -/
def releaseLock (s : KVStore) (resourceIdentifiers : List ResourceIdentifier) (jobId : String) :
    KVStore × Nat :=
  releaseLockInternal s (generateResourceLockKeys resourceIdentifiers) jobId

/-- Outcome of `acquireLock`: a normal return with the final store and the
boolean result, or a re-raised exception (after rollback) with the final store. -/
inductive AcqOutcome
  | ok (s : KVStore) (acquired : Bool)
  | err (s : KVStore) (e : JsError)

/-- Does the fault schedule hit the given `redis.set` call index? -/
def faHit : Option (Nat × JsError) → Nat → Bool
  | some (fi, _), idx => fi = idx
  | none, _ => false

/-- The error raised by the fault schedule. -/
def faErrOf : Option (Nat × JsError) → JsError
  | some (_, e) => e
  | none => ⟨"", ""⟩

/-- The `for (const lockKey of lockKeys)` loop of
`DistributedLockService.acquireLock`, with the accumulated `acquiredKeys` and
`lockResults`.  On a failed `setNX` the keys acquired so far are released
(owner-verified) and `false` is returned; when a `redis.set` call raises
(per the fault schedule) the same rollback runs and the error is re-raised. -/
def acquireGo (s : KVStore) (keys : List String) (jobId : String) (ttl : Nat)
    (acquiredKeys : List String) (lockResults : List Bool)
    (callIdx : Nat) (fa : Option (Nat × JsError)) : AcqOutcome :=
  match keys with
  | [] => .ok s (lockResults.all (fun b => b))
  | k :: rest =>
    if faHit fa callIdx then
      .err (releaseLockInternal s acquiredKeys jobId).1 (faErrOf fa)
    else
      match setNX s k jobId ttl with
      | (s2, true) =>
        acquireGo s2 rest jobId ttl (acquiredKeys ++ [k]) (lockResults ++ [true]) (callIdx + 1) fa
      | (s2, false) =>
        .ok (releaseLockInternal s2 acquiredKeys jobId).1 false

/-- `DistributedLockService.acquireLock`. -/
def acquireLock (s : KVStore) (resourceIdentifiers : List ResourceIdentifier) (jobId : String)
    (ttl : Nat) (fa : Option (Nat × JsError)) : AcqOutcome :=
  acquireGo s (generateResourceLockKeys resourceIdentifiers) jobId ttl [] [] 0 fa

/-! ### Lock lemmas -/

/-- Pointwise description of the Lua release loop: a key is deleted exactly
when it is among the released keys and currently stores the releasing jobId. -/
theorem relGo_apply (keys : List String) (s : KVStore) (jobId : String) (cnt : Nat)
    (k : String) :
    (relGo s keys jobId cnt).1 k =
      if k ∈ keys ∧ valueAt s k = some jobId then none else s k := by
  induction keys generalizing s cnt with
  | nil => simp [relGo]
  | cons k0 rest ih =>
    by_cases hk : k = k0
    · subst hk
      match hs : s k with
      | some e =>
        by_cases hv : e.value = jobId
        · simp only [relGo, hs, hv, if_pos]
          rw [ih]
          have hdel : storeDel s k k = none := by simp [storeDel]
          by_cases hmem : k ∈ rest
          · simp only [valueAt, hdel, Option.map_none]
            simp [hs, hv, hdel]
          · simp only [valueAt, hdel, Option.map_none]
            simp [hs, hv, hdel]
        · simp only [relGo, hs, hv, if_neg, if_false]
          rw [ih]
          have : valueAt s k = some e.value := by simp [valueAt, hs]
          by_cases hmem : k ∈ rest <;>
            simp_all [valueAt, hs]
      | none =>
        simp only [relGo, hs]
        rw [ih]
        simp [valueAt, hs]
    · match hs : s k0 with
      | some e =>
        by_cases hv : e.value = jobId
        · simp only [relGo, hs, hv, if_pos]
          rw [ih]
          have h1 : storeDel s k0 k = s k := by simp [storeDel, hk]
          have h2 : valueAt (storeDel s k0) k = valueAt s k := by
            simp [valueAt, h1]
          rw [h1, h2]
          by_cases hmem : k ∈ rest <;> simp [hmem, hk]
        · simp only [relGo, hs, hv, if_neg, if_false]
          rw [ih]
          by_cases hmem : k ∈ rest <;> simp [hmem, hk]
      | none =>
        simp only [relGo, hs]
        rw [ih]
        by_cases hmem : k ∈ rest <;> simp [hmem, hk]

/-- Invariant of the acquisition loop relating the original store `s0`, the
current store `s` and the keys acquired so far. -/
def AcqInv (s0 s : KVStore) (acq : List String) (jobId : String) (ttl : Nat) : Prop :=
  (∀ k, k ∉ acq → s k = s0 k) ∧ (∀ k ∈ acq, s k = some ⟨jobId, ttl⟩ ∧ s0 k = none)

/-- Rolling back the acquired keys restores the original store. -/
theorem relGo_restore (s0 s : KVStore) (acq : List String) (jobId : String) (ttl : Nat)
    (h : AcqInv s0 s acq jobId ttl) : (releaseLockInternal s acq jobId).1 = s0 := by
  funext k
  rw [releaseLockInternal, relGo_apply]
  by_cases hmem : k ∈ acq
  · have := (h.2 k hmem)
    simp [hmem, valueAt, this.1, this.2]
  · simp [hmem, h.1 k hmem]

/-- Characterisation of the acquisition loop: on `true` every key ends up
owned (and was previously absent); on `false` or on a re-raised exception the
store is rolled back to the original. -/
theorem acquireGo_spec (keys : List String) (s0 s : KVStore) (acq : List String)
    (res : List Bool) (idx : Nat) (fa : Option (Nat × JsError)) (jobId : String) (ttl : Nat)
    (hinv : AcqInv s0 s acq jobId ttl) (hres : res.all (fun b => b) = true) :
    (∀ s', acquireGo s keys jobId ttl acq res idx fa = .ok s' true →
        AcqInv s0 s' (acq ++ keys) jobId ttl)
    ∧ (∀ s', acquireGo s keys jobId ttl acq res idx fa = .ok s' false → s' = s0)
    ∧ (∀ s' e, acquireGo s keys jobId ttl acq res idx fa = .err s' e → s' = s0) := by
  induction keys generalizing s acq res idx with
  | nil =>
    refine ⟨?_, ?_, ?_⟩
    · intro s' h
      simp only [acquireGo, hres] at h
      cases h
      simpa using hinv
    · intro s' h
      simp only [acquireGo, hres] at h
      cases h
    · intro s' e h
      simp only [acquireGo] at h
      exact AcqOutcome.noConfusion h
  | cons k0 rest ih =>
    by_cases hfa : faHit fa idx = true
    · refine ⟨?_, ?_, ?_⟩
      · intro s' h
        simp only [acquireGo, hfa, if_pos] at h
        exact AcqOutcome.noConfusion h
      · intro s' h
        simp only [acquireGo, hfa, if_pos] at h
        exact AcqOutcome.noConfusion h
      · intro s' e h
        simp only [acquireGo, hfa, if_pos] at h
        cases h
        exact relGo_restore s0 s acq jobId ttl hinv
    · match hs : s k0 with
      | some e0 =>
        have hred : acquireGo s (k0 :: rest) jobId ttl acq res idx fa =
            .ok (releaseLockInternal s acq jobId).1 false := by
          simp only [acquireGo, hfa, setNX, hs, if_neg, Bool.false_eq_true,
            not_false_eq_true]
        refine ⟨?_, ?_, ?_⟩
        · intro s' h
          rw [hred] at h
          cases h
        · intro s' h
          rw [hred] at h
          cases h
          exact relGo_restore s0 s acq jobId ttl hinv
        · intro s' e h
          rw [hred] at h
          exact AcqOutcome.noConfusion h
      | none =>
        have hk0acq : k0 ∉ acq := by
          intro hmem
          have := (hinv.2 k0 hmem).1
          rw [hs] at this
          cases this
        have hinv2 : AcqInv s0 (storeSet s k0 ⟨jobId, ttl⟩) (acq ++ [k0]) jobId ttl := by
          constructor
          · intro k hk
            have hk1 : k ∉ acq := fun h => hk (by simp [h])
            have hk2 : k ≠ k0 := fun h => hk (by simp [h])
            simp [storeSet, hk2, hinv.1 k hk1]
          · intro k hk
            rcases List.mem_append.1 hk with hk | hk
            · have hk2 : k ≠ k0 := by
                intro h
                exact hk0acq (h ▸ hk)
              have := hinv.2 k hk
              simp [storeSet, hk2, this.1, this.2]
            · have hk2 : k = k0 := by simpa using hk
              subst hk2
              have : s0 k = none := by rw [← hinv.1 k hk0acq, hs]
              simp [storeSet, this]
        have hred : acquireGo s (k0 :: rest) jobId ttl acq res idx fa =
            acquireGo (storeSet s k0 ⟨jobId, ttl⟩) rest jobId ttl (acq ++ [k0])
              (res ++ [true]) (idx + 1) fa := by
          simp only [acquireGo, hfa, setNX, hs, Bool.false_eq_true, not_false_eq_true,
            if_neg]
        have hres2 : (res ++ [true]).all (fun b => b) = true := by
          simp [List.all_append, hres]
        have := ih (storeSet s k0 ⟨jobId, ttl⟩) (acq ++ [k0]) (res ++ [true]) (idx + 1)
          hinv2 hres2
        refine ⟨?_, ?_, ?_⟩
        · intro s' h
          rw [hred] at h
          have hout := this.1 s' h
          simpa [List.append_assoc] using hout
        · intro s' h
          rw [hred] at h
          exact this.2.1 s' h
        · intro s' e h
          rw [hred] at h
          exact this.2.2 s' e h

/-- Without a fault schedule the acquisition loop never raises. -/
theorem acquireGo_no_err (keys : List String) (s : KVStore) (jobId : String) (ttl : Nat)
    (acq : List String) (res : List Bool) (idx : Nat) :
    ∀ s' e, acquireGo s keys jobId ttl acq res idx none ≠ .err s' e := by
  induction keys generalizing s acq res idx with
  | nil =>
    intro s' e h
    simp only [acquireGo] at h
    exact AcqOutcome.noConfusion h
  | cons k0 rest ih =>
    intro s' e h
    match hs : s k0 with
    | some e0 =>
      simp only [acquireGo, faHit, setNX, hs, Bool.false_eq_true, not_false_eq_true,
        if_neg] at h
      exact AcqOutcome.noConfusion h
    | none =>
      simp only [acquireGo, faHit, setNX, hs, Bool.false_eq_true, not_false_eq_true,
        if_neg] at h
      exact ih _ _ _ _ s' e h

/-- A successful acquisition set every derived key (previously absent) to the
jobId with the requested TTL and touched nothing else. -/
theorem acquireLock_ok_true (s : KVStore) (rs : List ResourceIdentifier) (jobId : String)
    (ttl : Nat) (fa : Option (Nat × JsError)) (s' : KVStore)
    (h : acquireLock s rs jobId ttl fa = .ok s' true) :
    (∀ k ∈ generateResourceLockKeys rs, s' k = some ⟨jobId, ttl⟩ ∧ s k = none)
    ∧ (∀ k, k ∉ generateResourceLockKeys rs → s' k = s k) := by
  have hinv : AcqInv s s [] jobId ttl := ⟨fun _ _ => rfl, by simp⟩
  have hout := (acquireGo_spec (generateResourceLockKeys rs) s s [] [] 0 fa jobId ttl
    hinv (by simp)).1 s' h
  simp only [List.nil_append] at hout
  exact ⟨fun k hk => hout.2 k hk, fun k hk => hout.1 k hk⟩

/-- A failed acquisition rolls the store back to what it was. -/
theorem acquireLock_ok_false (s : KVStore) (rs : List ResourceIdentifier) (jobId : String)
    (ttl : Nat) (fa : Option (Nat × JsError)) (s' : KVStore)
    (h : acquireLock s rs jobId ttl fa = .ok s' false) : s' = s := by
  have hinv : AcqInv s s [] jobId ttl := ⟨fun _ _ => rfl, by simp⟩
  exact (acquireGo_spec (generateResourceLockKeys rs) s s [] [] 0 fa jobId ttl
    hinv (by simp)).2.1 s' h

/-- A re-raised exception also leaves the store rolled back, and only happens
under a fault schedule. -/
theorem acquireLock_err (s : KVStore) (rs : List ResourceIdentifier) (jobId : String)
    (ttl : Nat) (fa : Option (Nat × JsError)) (s' : KVStore) (e : JsError)
    (h : acquireLock s rs jobId ttl fa = .err s' e) : s' = s ∧ fa ≠ none := by
  have hinv : AcqInv s s [] jobId ttl := ⟨fun _ _ => rfl, by simp⟩
  refine ⟨(acquireGo_spec (generateResourceLockKeys rs) s s [] [] 0 fa jobId ttl
    hinv (by simp)).2.2 s' e h, ?_⟩
  intro hfa
  subst hfa
  exact acquireGo_no_err (generateResourceLockKeys rs) s jobId ttl [] [] 0 s' e h

/-- If some derived key is already present, acquisition cannot return `true`. -/
theorem acquireLock_present_not_true (s : KVStore) (rs : List ResourceIdentifier)
    (jobId : String) (ttl : Nat) (fa : Option (Nat × JsError)) (s' : KVStore)
    (k : String) (hk : k ∈ generateResourceLockKeys rs) (hpresent : s k ≠ none) :
    acquireLock s rs jobId ttl fa ≠ .ok s' true := by
  intro h
  exact hpresent ((acquireLock_ok_true s rs jobId ttl fa s' h).1 k hk).2

/-- C3: `acquireLock` is all-or-nothing.  It returns `true` only when every
derived lock key was set (set-if-absent with the TTL, value = jobId); when a
key already exists it releases every key acquired within the call and returns
`false` with the store exactly as before; and an exception raised by a
`redis.set` call during the loop triggers the same rollback and is re-raised
(no exception arises without a fault). -/
theorem acquireLock_all_or_nothing (s : KVStore) (rs : List ResourceIdentifier)
    (jobId : String) (ttl : Nat) (fa : Option (Nat × JsError)) :
    (∀ s', acquireLock s rs jobId ttl fa = .ok s' true →
        (∀ k ∈ generateResourceLockKeys rs, s' k = some ⟨jobId, ttl⟩ ∧ s k = none)
        ∧ (∀ k, k ∉ generateResourceLockKeys rs → s' k = s k))
    ∧ (∀ s', acquireLock s rs jobId ttl fa = .ok s' false → s' = s)
    ∧ (∀ s' e, acquireLock s rs jobId ttl fa = .err s' e → s' = s ∧ fa ≠ none)
    ∧ (fa = none → (∃ k ∈ generateResourceLockKeys rs, s k ≠ none) →
        ∃ s', acquireLock s rs jobId ttl fa = .ok s' false) := by
  refine ⟨fun s' h => acquireLock_ok_true s rs jobId ttl fa s' h,
    fun s' h => acquireLock_ok_false s rs jobId ttl fa s' h,
    fun s' e h => acquireLock_err s rs jobId ttl fa s' e h, ?_⟩
  rintro rfl ⟨k, hk, hpresent⟩
  match hres : acquireLock s rs jobId ttl none with
  | .ok s' true =>
    exact absurd hres (acquireLock_present_not_true s rs jobId ttl none s' k hk hpresent)
  | .ok s' false => exact ⟨s', rfl⟩
  | .err s' e =>
    exact absurd rfl (acquireLock_err s rs jobId ttl none s' e hres).2

/-- Witness for C3 at a concrete store where the second derived key is taken:
acquisition fails and the store is unchanged. -/
theorem acquireLock_all_or_nothing_witness :
    ∃ s', acquireLock (storeSet emptyStore "tx_lock:order_5" ⟨"jobOther", 30⟩)
        [⟨"user", "1", none⟩, ⟨"order", "5", none⟩] "jobX" 30 none = .ok s' false
      ∧ s' = storeSet emptyStore "tx_lock:order_5" ⟨"jobOther", 30⟩ := by
  have hmain := acquireLock_all_or_nothing
    (storeSet emptyStore "tx_lock:order_5" ⟨"jobOther", 30⟩)
    [⟨"user", "1", none⟩, ⟨"order", "5", none⟩] "jobX" 30 none
  obtain ⟨s', hs'⟩ := hmain.2.2.2 rfl
    ⟨"tx_lock:order_5", by decide, by decide⟩
  exact ⟨s', hs', hmain.2.1 s' hs'⟩

/-- C2: owner-verified release.  Releasing as `jobX` deletes exactly the
derived keys whose current value is `jobX`; a key held by `jobY ≠ jobX`
survives, and `jobY`'s own subsequent release deletes it. -/
theorem releaseLock_owner_verified (s : KVStore) (rs : List ResourceIdentifier)
    (jobX jobY k : String) (e : KVEntry)
    (hne : jobY ≠ jobX) (hk : s k = some e) (hv : e.value = jobY) :
    (releaseLock s rs jobX).1 k = some e
    ∧ (∀ k', (releaseLock s rs jobX).1 k' =
        if k' ∈ generateResourceLockKeys rs ∧ valueAt s k' = some jobX then none else s k')
    ∧ (k ∈ generateResourceLockKeys rs →
        (releaseLock (releaseLock s rs jobX).1 rs jobY).1 k = none) := by
  have happly : ∀ k', (releaseLock s rs jobX).1 k' =
      if k' ∈ generateResourceLockKeys rs ∧ valueAt s k' = some jobX then none else s k' :=
    fun k' => relGo_apply (generateResourceLockKeys rs) s jobX 0 k'
  have hval : valueAt s k = some jobY := by simp [valueAt, hk, hv]
  have hkeep : (releaseLock s rs jobX).1 k = some e := by
    rw [happly k]
    have : ¬(k ∈ generateResourceLockKeys rs ∧ valueAt s k = some jobX) := by
      rintro ⟨-, hcontra⟩
      rw [hval] at hcontra
      exact hne (Option.some_injective _ hcontra)
    rw [if_neg this, hk]
  refine ⟨hkeep, happly, fun hmem => ?_⟩
  have hval1 : valueAt (releaseLock s rs jobX).1 k = some jobY := by
    simp [valueAt, hkeep, hv]
  have h2 : (releaseLock (releaseLock s rs jobX).1 rs jobY).1 k =
      if k ∈ generateResourceLockKeys rs ∧ valueAt (releaseLock s rs jobX).1 k = some jobY
      then none else (releaseLock s rs jobX).1 k :=
    relGo_apply (generateResourceLockKeys rs) (releaseLock s rs jobX).1 jobY 0 k
  rw [h2, if_pos ⟨hmem, hval1⟩]

/-- Witness for C2 at a concrete one-key store held by `jobY`. -/
theorem releaseLock_owner_verified_witness :
    (releaseLock (storeSet emptyStore "tx_lock:user_7" ⟨"jobY", 30⟩)
        [⟨"user", "7", none⟩] "jobX").1 "tx_lock:user_7" = some ⟨"jobY", 30⟩
    ∧ (releaseLock
        (releaseLock (storeSet emptyStore "tx_lock:user_7" ⟨"jobY", 30⟩)
          [⟨"user", "7", none⟩] "jobX").1
        [⟨"user", "7", none⟩] "jobY").1 "tx_lock:user_7" = none := by
  have h := releaseLock_owner_verified (storeSet emptyStore "tx_lock:user_7" ⟨"jobY", 30⟩)
    [⟨"user", "7", none⟩] "jobX" "jobY" "tx_lock:user_7" ⟨"jobY", 30⟩
    (by decide) (by decide) rfl
  exact ⟨h.1, h.2.2 (by decide)⟩

/-- C9: for an empty resource identifier list `acquireLock` performs no redis
call at all: it returns `true` and the store is returned unchanged. -/
theorem acquireLock_empty_resources (s : KVStore) (jobId : String) (ttl : Nat)
    (fa : Option (Nat × JsError)) :
    acquireLock s [] jobId ttl fa = .ok s true := rfl

/-! ### Error classification (consumer `isDLQRetryable`, compensation service
`isRetryableCompensationError`) -/

/-- JavaScript `hay.includes(needle)`: contiguous substring test. -/
def strIncludes (hay needle : String) : Bool :=
  decide (needle.toList <:+: hay.toList)

/-- JavaScript `s.toLowerCase()` (ASCII range, as in the classified terms). -/
def jsToLower (s : String) : String :=
  String.mk (s.toList.map Char.toLower)

/-- Retryable saga-level errors (`SimpleTransactionConsumer.isDLQRetryable`). -/
def dlqRetryableErrors : List String :=
  ["ECONNREFUSED", "ETIMEDOUT", "Step function not found", "Redis connection failed",
   "Database temporarily unavailable", "External API timeout"]

/-- Non-retryable saga-level errors (business-logic failures). -/
def dlqNonRetryableErrors : List String :=
  ["Duplicate", "Insufficient", "already", "Invalid", "Permission denied"]

/-- `SimpleTransactionConsumer.isDLQRetryable`: an explicit non-retryable
match (case-insensitive, on the message) wins; otherwise the error is
retryable when a retryable term occurs in the message or the name. -/
def isDLQRetryable (error : JsError) : Bool :=
  let isNonRetryable := dlqNonRetryableErrors.any (fun nonRetryable =>
    strIncludes (jsToLower error.message) (jsToLower nonRetryable))
  if isNonRetryable then false
  else dlqRetryableErrors.any (fun retryable =>
    strIncludes error.message retryable || strIncludes error.name retryable)

/-- Retryable compensation errors (`CompensationService.isRetryableCompensationError`). -/
def retryableCompensationErrors : List String :=
  ["ECONNREFUSED", "ETIMEDOUT", "Lock wait timeout", "Connection lost",
   "Server temporarily unavailable", "Redis connection failed"]

/-- Terminal compensation errors. -/
def nonRetryableCompensationErrors : List String :=
  ["not found", "Invalid parameter", "Permission denied", "Constraint violation"]

/-- `CompensationService.isRetryableCompensationError`. -/
def isRetryableCompensationError (error : JsError) : Bool :=
  let isNonRetryable := nonRetryableCompensationErrors.any (fun nonRetryable =>
    strIncludes (jsToLower error.message) (jsToLower nonRetryable))
  if isNonRetryable then false
  else retryableCompensationErrors.any (fun retryable =>
    strIncludes error.message retryable || strIncludes error.name retryable)

/-! ### Compensation engine (`CompensationService.executeCompensation`) -/

/-- An opaque serializable step result; `none` models the JS `null`. -/
abbrev JVal := String

/-- A registered step: its execute action (a deterministic outcome in this
model) and the optional compensate action. -/
structure StepExecution where
  execute : Except JsError JVal
  compensate : Option (Option JVal → Except JsError Unit)

/-- The step registry, keyed by step name (`stepRegistry.get`). -/
def Registry : Type := String → Option StepExecution

/-- An element of the worker's `executionResults` success trail. -/
structure ExecEntry where
  step : String
  result : Option JVal
  stepFunction : StepExecution

/-- A persisted `compensation_failure:<jobId>:<stepName>` record. -/
structure CompFailRecord where
  jobId : String
  stepName : String
  stepResult : Option JVal
  errorMessage : String
  errorName : String
  retryable : Bool

/-- `CompensationService.executeCompensation`: iterate the given trail, invoke
each present compensate action with the stored result, and on a throw record
the failure (classified retryable or not) without aborting the remaining
entries.  Returns the chronological invocation log and the failure records. -/
def executeCompensation (executionResults : List ExecEntry) (jobId : String) :
    List (String × Option JVal) × List CompFailRecord :=
  match executionResults with
  | [] => ([], [])
  | en :: rest =>
    match en.stepFunction.compensate with
    | none => executeCompensation rest jobId
    | some f =>
      let tail := executeCompensation rest jobId
      match f en.result with
      | .ok _ => ((en.step, en.result) :: tail.1, tail.2)
      | .error compensationError =>
        let record : CompFailRecord :=
          if isRetryableCompensationError compensationError then
            ⟨jobId, en.step, en.result, compensationError.message,
              compensationError.name, true⟩
          else
            ⟨jobId, en.step, en.result, compensationError.message,
              compensationError.name, false⟩
        ((en.step, en.result) :: tail.1, record :: tail.2)

/-- When every entry has a compensate action, the invocation log is exactly
the trail order with each entry's stored result, whatever the outcomes. -/
theorem executeCompensation_log_all (executionResults : List ExecEntry) (jobId : String)
    (hall : ∀ en ∈ executionResults, ∃ f, en.stepFunction.compensate = some f) :
    (executeCompensation executionResults jobId).1 =
      executionResults.map (fun en => (en.step, en.result)) := by
  induction executionResults with
  | nil => rfl
  | cons en rest ih =>
    obtain ⟨f, hf⟩ := hall en (by simp)
    have htail := ih (fun x hx => hall x (by simp [hx]))
    simp only [executeCompensation, hf]
    match f en.result with
    | .ok _ => simpa using htail
    | .error ce => simpa using htail

/-- C8: compensation-failure classification is substring-based with terminal
precedence.  Any case-insensitive terminal match on the message forces
non-retryable, even when a retryable term also occurs; the error is retryable
exactly when no terminal term matches and some retryable term occurs
case-sensitively in the message or the name. -/
theorem isRetryableCompensationError_spec (e : JsError) :
    ((∃ t ∈ nonRetryableCompensationErrors, strIncludes (jsToLower e.message) (jsToLower t) = true) →
      isRetryableCompensationError e = false)
    ∧ (isRetryableCompensationError e = true ↔
        ((∀ t ∈ nonRetryableCompensationErrors, strIncludes (jsToLower e.message) (jsToLower t) = false)
         ∧ ∃ t ∈ retryableCompensationErrors,
             (strIncludes e.message t = true ∨ strIncludes e.name t = true))) := by
  by_cases hnr : (nonRetryableCompensationErrors.any (fun nonRetryable =>
      strIncludes (jsToLower e.message) (jsToLower nonRetryable))) = true
  · have hval : isRetryableCompensationError e = false := by
      simp only [isRetryableCompensationError, hnr, if_pos]
    refine ⟨fun _ => hval, ?_⟩
    rw [hval]
    constructor
    · intro h
      cases h
    · rintro ⟨hall, -⟩
      obtain ⟨t, ht, hpt⟩ := List.any_eq_true.1 hnr
      rw [hall t ht] at hpt
      cases hpt
  · have hval : isRetryableCompensationError e =
        retryableCompensationErrors.any (fun retryable =>
          strIncludes e.message retryable || strIncludes e.name retryable) := by
      simp only [isRetryableCompensationError, hnr, if_neg, Bool.false_eq_true,
        not_false_eq_true]
    have hallf : ∀ t ∈ nonRetryableCompensationErrors,
        strIncludes (jsToLower e.message) (jsToLower t) = false := by
      intro t ht
      by_contra hcontra
      exact hnr (List.any_eq_true.2 ⟨t, ht, by simpa using hcontra⟩)
    refine ⟨fun ⟨t, ht, hpt⟩ => ?_, ?_⟩
    · rw [hallf t ht] at hpt
      cases hpt
    · rw [hval]
      constructor
      · intro h
        obtain ⟨t, ht, hpt⟩ := List.any_eq_true.1 h
        exact ⟨hallf, t, ht, by simpa using hpt⟩
      · rintro ⟨-, t, ht, hpt⟩
        exact List.any_eq_true.2 ⟨t, ht, by simpa using hpt⟩

/-- Witness for C8: a message matching the terminal term `not found` is
classified non-retryable even though it also matches retryable `ETIMEDOUT`. -/
theorem isRetryableCompensationError_spec_witness :
    isRetryableCompensationError ⟨"ETIMEDOUT: order not found", "Error"⟩ = false :=
  (isRetryableCompensationError_spec ⟨"ETIMEDOUT: order not found", "Error"⟩).1
    ⟨"not found", by decide, by decide⟩

/-- C10: a trail entry whose step function has no compensate action is skipped
silently: compensating the trail with it equals compensating the trail without
it, so it contributes no invocation and no failure record, and the remaining
entries are still processed. -/
theorem executeCompensation_skips_missing (pre post : List ExecEntry) (en : ExecEntry)
    (jobId : String) (h : en.stepFunction.compensate = none) :
    executeCompensation (pre ++ en :: post) jobId = executeCompensation (pre ++ post) jobId := by
  induction pre with
  | nil => simp only [List.nil_append, executeCompensation, h]
  | cons a rest ih =>
    have ih2 : executeCompensation (rest.append (en :: post)) jobId =
        executeCompensation (rest.append post) jobId := ih
    simp only [List.cons_append, executeCompensation, ih, ih2]

/-- Witness for C10 on a concrete two-entry trail whose second entry has no
compensate action. -/
theorem executeCompensation_skips_missing_witness :
    executeCompensation
      [⟨"stepA", some "rA", ⟨.ok "rA", some (fun _ => .ok ())⟩⟩,
       ⟨"stepB", some "rB", ⟨.ok "rB", none⟩⟩] "job-1" =
    executeCompensation [⟨"stepA", some "rA", ⟨.ok "rA", some (fun _ => .ok ())⟩⟩] "job-1" :=
  executeCompensation_skips_missing
    [⟨"stepA", some "rA", ⟨.ok "rA", some (fun _ => .ok ())⟩⟩] []
    ⟨"stepB", some "rB", ⟨.ok "rB", none⟩⟩ "job-1" rfl

/-! ### Worker job data (`SimpleTransactionConsumer`) -/

/-- Step status as persisted in the job payload. -/
inductive StepStatus
  | pending
  | in_progress
  | completed
  | failed
deriving DecidableEq, Repr

/-- One element of the persisted `steps` array. -/
structure JobStepData where
  name : String
  status : StepStatus
  index : Nat
  result : Option JVal
deriving DecidableEq, Repr

/-- Default used for (never exercised) out-of-range reads; the worker only
indexes within `steps.length`. -/
def dfltStep : JobStepData := ⟨"", .pending, 0, none⟩

/-- The persisted job payload built by `SimpleTransactionManager.execute`. -/
structure JobData where
  userId : Nat
  steps : List JobStepData
  currentStepIndex : Nat
  createdAt : String
  idempotencyKey : Option String
  resourceIdentifiers : Option (List ResourceIdentifier)
deriving DecidableEq, Repr

/-- In-place update of `steps[i]` (the worker always calls it in range). -/
def setStep (steps : List JobStepData) (i : Nat) (f : JobStepData → JobStepData) :
    List JobStepData :=
  match steps, i with
  | [], _ => []
  | st :: rest, 0 => f st :: rest
  | st :: rest, n + 1 => st :: setStep rest n f

/-- `SimpleTransactionConsumer.updateJobStepStatus`: set the step's status
(and its result when one is passed), bump `currentStepIndex` to at least the
step for `in_progress`/`completed`, and advance it past the step on
`completed` unless the step is the last one; the new payload is persisted via
`job.updateData`. -/
def updateJobStepStatus (d : JobData) (stepIndex : Nat) (status : StepStatus)
    (result? : Option JVal) : JobData :=
  let steps' := setStep d.steps stepIndex (fun st =>
    let st1 := { st with status := status }
    match result? with
    | some r => { st1 with result := some r }
    | none => st1)
  let cur1 := if status = .in_progress ∨ status = .completed
    then max d.currentStepIndex stepIndex else d.currentStepIndex
  let cur2 := if status = .completed ∧ stepIndex < d.steps.length - 1
    then stepIndex + 1 else cur1
  { d with steps := steps', currentStepIndex := cur2 }

/-- `setStep` keeps the length. -/
theorem setStep_length (steps : List JobStepData) (i : Nat) (f : JobStepData → JobStepData) :
    (setStep steps i f).length = steps.length := by
  induction steps generalizing i with
  | nil => rfl
  | cons st rest ih =>
    match i with
    | 0 => rfl
    | n + 1 => simp [setStep, ih]

/-- `setStep` with a name-preserving function preserves every step name. -/
theorem setStep_name (steps : List JobStepData) (i : Nat) (f : JobStepData → JobStepData)
    (hf : ∀ st, (f st).name = st.name) (j : Nat) :
    ((setStep steps i f).getD j dfltStep).name = (steps.getD j dfltStep).name := by
  induction steps generalizing i j with
  | nil => rfl
  | cons st rest ih =>
    match i, j with
    | 0, 0 => simpa [setStep] using hf st
    | 0, m + 1 => rfl
    | n + 1, 0 => rfl
    | n + 1, m + 1 => simpa [setStep] using ih n m

/-- `updateJobStepStatus` keeps the length of `steps`. -/
theorem updateJobStepStatus_length (d : JobData) (i : Nat) (status : StepStatus)
    (result? : Option JVal) :
    (updateJobStepStatus d i status result?).steps.length = d.steps.length :=
  setStep_length d.steps i _

/-- `updateJobStepStatus` keeps every step name. -/
theorem updateJobStepStatus_name (d : JobData) (i : Nat) (status : StepStatus)
    (result? : Option JVal) (j : Nat) :
    (((updateJobStepStatus d i status result?).steps).getD j dfltStep).name =
      ((d.steps).getD j dfltStep).name := by
  refine setStep_name d.steps i _ (fun st => ?_) j
  match result? with
  | some r => rfl
  | none => rfl

/-! ### Dead-letter quarantine (`handleDeadLetterQueue`, `DLQService.addToDLQ`) -/

/-- The DLQ record assembled by `SimpleTransactionConsumer.handleDeadLetterQueue`
(business fields persisted by `DLQService.addToDLQ`). -/
structure DLQRecord where
  originalJobId : String
  failureReason : String
  completedBenefits : List String
  failedStep : String
  userId : Nat
  manualActionRequired : String
  canRetry : Bool
  priority : String
  stepCount : Nat
  failedStepIndex : Nat
deriving DecidableEq, Repr

/-- `SimpleTransactionConsumer.handleDeadLetterQueue`: build the quarantine
record from the job payload at failure time and the final error. -/
def handleDeadLetterQueue (jobId : String) (d : JobData) (finalError : JsError) : DLQRecord :=
  let completedBenefits := ((d.steps.enum.filter (fun p =>
    decide (p.1 < d.currentStepIndex) && decide (p.2.status = .completed))).map
      (fun p => p.2.name))
  { originalJobId := jobId
    failureReason := finalError.message
    completedBenefits := completedBenefits
    failedStep := match d.steps.get? d.currentStepIndex with
      | some st => if st.name = "" then "Unknown" else st.name
      | none => "Unknown"
    userId := d.userId
    manualActionRequired := "CS팀 검토 필요: " ++ finalError.message
    canRetry := isDLQRetryable finalError
    priority := if isDLQRetryable finalError then "high" else "normal"
    stepCount := d.steps.length
    failedStepIndex := d.currentStepIndex }

/-- The non-retryable check of `isDLQRetryable` is false when no term matches. -/
theorem isDLQRetryable_eq_of_no_nonretryable (e : JsError)
    (hno : ∀ t ∈ dlqNonRetryableErrors, strIncludes (jsToLower e.message) (jsToLower t) = false) :
    isDLQRetryable e = dlqRetryableErrors.any (fun retryable =>
      strIncludes e.message retryable || strIncludes e.name retryable) := by
  have hany : (dlqNonRetryableErrors.any (fun nonRetryable =>
      strIncludes (jsToLower e.message) (jsToLower nonRetryable))) = false := by
    rw [List.any_eq_false]
    intro t ht
    simp [hno t ht]
  simp only [isDLQRetryable, hany, Bool.false_eq_true, if_neg, not_false_eq_true]

/-- C7 counterexample: the final error of a job whose unregistered step is
named `Invalid-coupon` has a message containing `Step function not found`,
yet the quarantine record is created with `priority = normal` and
`canRetry = false` (the case-insensitive `Invalid` match wins). -/
theorem handleDeadLetterQueue_step_not_found_counterexample :
    strIncludes "Step function not found: Invalid-coupon" "Step function not found" = true
    ∧ (handleDeadLetterQueue "job-7"
        ⟨1, [⟨"Invalid-coupon", .pending, 0, none⟩], 0, "t0", none, none⟩
        ⟨"Step function not found: Invalid-coupon", "Error"⟩).priority = "normal"
    ∧ (handleDeadLetterQueue "job-7"
        ⟨1, [⟨"Invalid-coupon", .pending, 0, none⟩], 0, "t0", none, none⟩
        ⟨"Step function not found: Invalid-coupon", "Error"⟩).canRetry = false := by
  exact ⟨by decide, by decide, by decide⟩

/-- C7 (amended): a final error whose message contains `Step function not
found` and matches no non-retryable term (case-insensitively) is quarantined
with `priority = high` and `canRetry = true`; an error matching no term of
either list yields `priority = normal` and `canRetry = false`; and in every
record built by `handleDeadLetterQueue`, `priority = high` holds exactly when
`canRetry = true`. -/
theorem handleDeadLetterQueue_classification (jobId : String) (d : JobData) (e : JsError) :
    (strIncludes e.message "Step function not found" = true →
      (∀ t ∈ dlqNonRetryableErrors, strIncludes (jsToLower e.message) (jsToLower t) = false) →
      (handleDeadLetterQueue jobId d e).priority = "high"
      ∧ (handleDeadLetterQueue jobId d e).canRetry = true)
    ∧ ((∀ t ∈ dlqNonRetryableErrors, strIncludes (jsToLower e.message) (jsToLower t) = false) →
      (∀ t ∈ dlqRetryableErrors, strIncludes e.message t = false ∧ strIncludes e.name t = false) →
      (handleDeadLetterQueue jobId d e).priority = "normal"
      ∧ (handleDeadLetterQueue jobId d e).canRetry = false)
    ∧ ((handleDeadLetterQueue jobId d e).priority = "high" ↔
      (handleDeadLetterQueue jobId d e).canRetry = true) := by
  have hpriority : (handleDeadLetterQueue jobId d e).priority =
      if isDLQRetryable e then "high" else "normal" := rfl
  have hcanRetry : (handleDeadLetterQueue jobId d e).canRetry = isDLQRetryable e := rfl
  refine ⟨?_, ?_, ?_⟩
  · intro hmsg hno
    have hret : isDLQRetryable e = true := by
      rw [isDLQRetryable_eq_of_no_nonretryable e hno]
      refine List.any_eq_true.2 ⟨"Step function not found", by decide, ?_⟩
      simp [hmsg]
    rw [hpriority, hcanRetry, hret]
    exact ⟨rfl, rfl⟩
  · intro hno hnone
    have hret : isDLQRetryable e = false := by
      rw [isDLQRetryable_eq_of_no_nonretryable e hno, List.any_eq_false]
      intro t ht
      simp [(hnone t ht).1, (hnone t ht).2]
    rw [hpriority, hcanRetry, hret]
    exact ⟨rfl, rfl⟩
  · rw [hpriority, hcanRetry]
    match h : isDLQRetryable e with
    | true => simp
    | false =>
      simp only [Bool.false_eq_true, if_neg, not_false_eq_true, if_false]
      constructor <;> intro hcontra <;> exact absurd hcontra (by decide)

/-- Witness for the amended C7 at a genuine step-not-found error. -/
theorem handleDeadLetterQueue_classification_witness :
    (handleDeadLetterQueue "job-8"
      ⟨1, [⟨"chargeCard", .pending, 0, none⟩], 0, "t0", none, none⟩
      ⟨"Step function not found: chargeCard", "Error"⟩).priority = "high"
    ∧ (handleDeadLetterQueue "job-8"
      ⟨1, [⟨"chargeCard", .pending, 0, none⟩], 0, "t0", none, none⟩
      ⟨"Step function not found: chargeCard", "Error"⟩).canRetry = true :=
  (handleDeadLetterQueue_classification "job-8"
    ⟨1, [⟨"chargeCard", .pending, 0, none⟩], 0, "t0", none, none⟩
    ⟨"Step function not found: chargeCard", "Error"⟩).1 (by decide) (by decide)

/-! ### Worker state machine (`SimpleTransactionConsumer.process`) -/

/-- Rebuild of the success trail from persisted step states (consumer lines
52 to 64): every `completed` step before `currentStepIndex` whose name
resolves in the registry contributes `(name, stored result, definition)`;
a registry miss is skipped silently. -/
def rebuildTrail (reg : Registry) (steps : List JobStepData) (currentStepIndex : Nat) :
    List ExecEntry :=
  (steps.take currentStepIndex).filterMap (fun st =>
    if st.status = .completed then
      (reg st.name).map (fun stepFunction => ⟨st.name, st.result, stepFunction⟩)
    else none)

/-- The error thrown when the lock is not acquired (`other transaction in
progress` on the named resources; the source message is Korean). -/
def resourceBusyError (resourceIdentifiers : List ResourceIdentifier) : JsError :=
  let resourceNames := String.intercalate ", "
    (resourceIdentifiers.map (fun r => r.type ++ ":" ++ r.id))
  ⟨"리소스(" ++ resourceNames ++ ")에 대한 다른 트랜잭션이 진행 중입니다", "Error"⟩

/-- Result of the step-execution loop. -/
structure LoopOut where
  d : JobData
  entries : List ExecEntry
  trace : List JobData
  prog : List Nat
  compLog : List (String × Option JVal)
  compRecs : List CompFailRecord
  outcome : Except JsError Unit

/-- The `for (let i = currentStepIndex; i < steps.length; i++)` loop of
`process`, recursing on the remaining iteration count `rem = n - i` where `n`
is the (constant) length of `steps`.  Each iteration publishes progress,
persists `in_progress`, resolves the step (raising `Step function not found`
on a miss), runs it, and on success persists `completed` with the result and
pushes the trail entry; on a throw it persists `failed`, compensates the
reversed trail and re-raises.  `trace` collects the persisted payloads of
this loop in order. -/
def processGo (reg : Registry) (jobId : String) (n : Nat) :
    Nat → Nat → JobData → List ExecEntry → LoopOut
  | 0, _, d, entries => ⟨d, entries, [], [], [], [], .ok ()⟩
  | rem + 1, i, d, entries =>
    let p := i * 100 / n
    let stepName := (d.steps.getD i dfltStep).name
    let d1 := updateJobStepStatus d i .in_progress none
    match reg stepName with
    | none =>
      let d2 := updateJobStepStatus d1 i .failed none
      let e : JsError := ⟨"Step function not found: " ++ stepName, "Error"⟩
      let cl := executeCompensation entries.reverse jobId
      ⟨d2, entries, [d1, d2], [p], cl.1, cl.2, .error e⟩
    | some stepFunction =>
      match stepFunction.execute with
      | .ok r =>
        let d2 := updateJobStepStatus d1 i .completed (some r)
        let out := processGo reg jobId n rem (i + 1) d2
          (entries ++ [⟨stepName, some r, stepFunction⟩])
        { out with trace := d1 :: d2 :: out.trace, prog := p :: out.prog }
      | .error stepError =>
        let d2 := updateJobStepStatus d1 i .failed none
        let cl := executeCompensation entries.reverse jobId
        ⟨d2, entries, [d1, d2], [p], cl.1, cl.2, .error stepError⟩

/-- Result of one worker invocation. -/
structure ProcOut where
  store : KVStore
  d : JobData
  trace : List JobData
  prog : List Nat
  compLog : List (String × Option JVal)
  compRecs : List CompFailRecord
  dlq : List DLQRecord
  outcome : Except JsError Unit

/-- `SimpleTransactionConsumer.process`: acquire the resource locks (default
resources `user:<userId>` when the payload has none, manager-default TTL 30),
throw `resourceBusyError` when not acquired, rebuild the trail, run the step
loop, and on any error write the DLQ record and re-raise; finally release the
locks only when they were acquired. -/
def process (reg : Registry) (s : KVStore) (jobId : String) (d0 : JobData)
    (fa : Option (Nat × JsError)) : ProcOut :=
  let finalResourceIdentifiers :=
    d0.resourceIdentifiers.getD [⟨"user", toString d0.userId, none⟩]
  match acquireLock s finalResourceIdentifiers jobId 30 fa with
  | .err s1 e =>
    ⟨s1, d0, [], [], [], [], [handleDeadLetterQueue jobId d0 e], .error e⟩
  | .ok s1 false =>
    let e := resourceBusyError finalResourceIdentifiers
    ⟨s1, d0, [], [], [], [], [handleDeadLetterQueue jobId d0 e], .error e⟩
  | .ok s1 true =>
    let entries0 := rebuildTrail reg d0.steps d0.currentStepIndex
    let lo := processGo reg jobId d0.steps.length
      (d0.steps.length - d0.currentStepIndex) d0.currentStepIndex d0 entries0
    match lo.outcome with
    | .ok _ =>
      let s2 := (releaseLock s1 finalResourceIdentifiers jobId).1
      ⟨s2, lo.d, lo.trace, lo.prog ++ [100], lo.compLog, lo.compRecs, [], .ok ()⟩
    | .error e =>
      let dlqRecord := handleDeadLetterQueue jobId lo.d e
      let s2 := (releaseLock s1 finalResourceIdentifiers jobId).1
      ⟨s2, lo.d, lo.trace, lo.prog, lo.compLog, lo.compRecs, [dlqRecord], .error e⟩

/-- C1: mutual exclusion.  Once job `j1` holds the locks for its resources,
a second worker invocation for `j2` whose resource set shares a derived key
fails its lock acquisition with `false` (store rolled back), its `process`
run throws the resource-busy error, performs no step (no persisted update),
and every lock key of `j1` still stores `j1` with its TTL afterwards. -/
theorem process_mutual_exclusion (reg : Registry) (s s1 : KVStore)
    (rids1 rids2 : List ResourceIdentifier) (j1 j2 : String) (d2 : JobData) (k : String)
    (h1 : acquireLock s rids1 j1 30 none = .ok s1 true)
    (hd : d2.resourceIdentifiers = some rids2)
    (hk1 : k ∈ generateResourceLockKeys rids1)
    (hk2 : k ∈ generateResourceLockKeys rids2)
    (_hne : j1 ≠ j2) :
    acquireLock s1 rids2 j2 30 none = .ok s1 false
    ∧ (process reg s1 j2 d2 none).outcome = .error (resourceBusyError rids2)
    ∧ (process reg s1 j2 d2 none).trace = []
    ∧ ∀ k' ∈ generateResourceLockKeys rids1,
        (process reg s1 j2 d2 none).store k' = some ⟨j1, 30⟩ := by
  have hkeys1 : ∀ k' ∈ generateResourceLockKeys rids1, s1 k' = some ⟨j1, 30⟩ :=
    fun k' hk' => ((acquireLock_ok_true s rids1 j1 30 none s1 h1).1 k' hk').1
  have hkpresent : s1 k ≠ none := by
    rw [hkeys1 k hk1]
    simp
  have hacq2 : acquireLock s1 rids2 j2 30 none = .ok s1 false := by
    match hres : acquireLock s1 rids2 j2 30 none with
    | .ok s' true =>
      exact absurd hres (acquireLock_present_not_true s1 rids2 j2 30 none s' k hk2 hkpresent)
    | .ok s' false =>
      rw [acquireLock_ok_false s1 rids2 j2 30 none s' hres]
    | .err s' e =>
      exact absurd rfl (acquireLock_err s1 rids2 j2 30 none s' e hres).2
  have hproc : process reg s1 j2 d2 none =
      ⟨s1, d2, [], [], [], [],
        [handleDeadLetterQueue j2 d2 (resourceBusyError rids2)],
        .error (resourceBusyError rids2)⟩ := by
    simp only [process, hd, Option.getD_some, hacq2]
  exact ⟨hacq2, by rw [hproc], by rw [hproc], fun k' hk' => by rw [hproc]; exact hkeys1 k' hk'⟩

/-- Witness for C1: job-1 holds `tx_lock:user_42`; job-2 on the same user
fails with the busy error and the lock still stores job-1. -/
theorem process_mutual_exclusion_witness :
    (process (fun _ => none)
        (storeSet emptyStore "tx_lock:user_42" ⟨"job-1", 30⟩) "job-2"
        ⟨42, [⟨"validate", .pending, 0, none⟩], 0, "t0", none,
          some [⟨"user", "42", none⟩]⟩ none).outcome =
      .error (resourceBusyError [⟨"user", "42", none⟩])
    ∧ (process (fun _ => none)
        (storeSet emptyStore "tx_lock:user_42" ⟨"job-1", 30⟩) "job-2"
        ⟨42, [⟨"validate", .pending, 0, none⟩], 0, "t0", none,
          some [⟨"user", "42", none⟩]⟩ none).store "tx_lock:user_42" =
      some ⟨"job-1", 30⟩ := by
  have h := process_mutual_exclusion (fun _ => none) emptyStore
    (storeSet emptyStore "tx_lock:user_42" ⟨"job-1", 30⟩)
    [⟨"user", "42", none⟩] [⟨"user", "42", none⟩] "job-1" "job-2"
    ⟨42, [⟨"validate", .pending, 0, none⟩], 0, "t0", none, some [⟨"user", "42", none⟩]⟩
    "tx_lock:user_42" rfl rfl (by decide) (by decide) (by decide)
  exact ⟨h.2.1, h.2.2.2 "tx_lock:user_42" (by decide)⟩

/-- Step data built by the coordinator for a list of step names
(`steps.map((s, index) => ...)` in `SimpleTransactionManager.execute`). -/
def mkSteps (stepNames : List String) : List JobStepData :=
  stepNames.enum.map (fun q => ⟨q.2, .pending, q.1, none⟩)

/-- Running the loop over a block of steps that all resolve and succeed
reduces to running it after the block, with the block's entries appended to
the trail; step names and the length of `steps` are preserved. -/
theorem processGo_succ (reg : Registry) (jobId : String) (n : Nat)
    (specl : List (String × JVal × (Option JVal → Except JsError Unit))) :
    ∀ (rem i : Nat) (d : JobData) (entries : List ExecEntry),
    (∀ p ∈ specl, reg p.1 = some ⟨.ok p.2.1, some p.2.2⟩) →
    (∀ j (hj : j < specl.length),
      ((d.steps.getD (i + j) dfltStep)).name = (specl.get ⟨j, hj⟩).1) →
    ∃ d', (∀ j, ((d'.steps.getD j dfltStep)).name = ((d.steps.getD j dfltStep)).name)
      ∧ d'.steps.length = d.steps.length
      ∧ (processGo reg jobId n (specl.length + rem) i d entries).compLog =
          (processGo reg jobId n rem (i + specl.length) d'
            (entries ++ specl.map (fun p => ⟨p.1, some p.2.1, ⟨.ok p.2.1, some p.2.2⟩⟩))).compLog
      ∧ (processGo reg jobId n (specl.length + rem) i d entries).outcome =
          (processGo reg jobId n rem (i + specl.length) d'
            (entries ++ specl.map (fun p => ⟨p.1, some p.2.1, ⟨.ok p.2.1, some p.2.2⟩⟩))).outcome := by
  induction specl with
  | nil =>
    intro rem i d entries _ _
    exact ⟨d, fun j => rfl, rfl, by simp, by simp⟩
  | cons p rest ih =>
    intro rem i d entries hreg hnames
    have hname0 : (d.steps.getD i dfltStep).name = p.1 := by
      have h0 := hnames 0 (by simp)
      simpa using h0
    have hregp : reg p.1 = some ⟨.ok p.2.1, some p.2.2⟩ := hreg p (by simp)
    have hlen1 : (p :: rest).length + rem = (rest.length + rem) + 1 := by
      simp [List.length_cons]
      omega
    have hstep : processGo reg jobId n ((rest.length + rem) + 1) i d entries =
        (let d1 := updateJobStepStatus d i .in_progress none
         let d2 := updateJobStepStatus d1 i .completed (some p.2.1)
         let out := processGo reg jobId n (rest.length + rem) (i + 1) d2
           (entries ++ [⟨p.1, some p.2.1, ⟨.ok p.2.1, some p.2.2⟩⟩])
         { out with trace := d1 :: d2 :: out.trace, prog := (i * 100 / n) :: out.prog }) := by
      simp only [processGo, hname0, hregp]
    obtain ⟨d'', hn, hl, hclog, hout⟩ := ih rem (i + 1)
      (updateJobStepStatus (updateJobStepStatus d i .in_progress none) i .completed (some p.2.1))
      (entries ++ [⟨p.1, some p.2.1, ⟨.ok p.2.1, some p.2.2⟩⟩])
      (fun q hq => hreg q (by simp [hq]))
      (by
        intro j hj
        have hstepname := updateJobStepStatus_name
          (updateJobStepStatus d i .in_progress none) i .completed (some p.2.1) (i + 1 + j)
        have hstepname2 := updateJobStepStatus_name d i .in_progress none (i + 1 + j)
        rw [hstepname, hstepname2]
        have hidx : i + 1 + j = i + (j + 1) := by omega
        rw [hidx]
        have hj2 : j + 1 < (p :: rest).length := by simp; omega
        have := hnames (j + 1) hj2
        simpa using this)
    refine ⟨d'', ?_, ?_, ?_, ?_⟩
    · intro j
      rw [hn j, updateJobStepStatus_name, updateJobStepStatus_name]
    · rw [hl, updateJobStepStatus_length, updateJobStepStatus_length]
    · rw [hlen1, hstep]
      show (processGo reg jobId n (rest.length + rem) (i + 1) _ _).compLog = _
      rw [hclog]
      have hidx : i + 1 + rest.length = i + (p :: rest).length := by simp; omega
      have hent : (entries ++ [(⟨p.1, some p.2.1, ⟨.ok p.2.1, some p.2.2⟩⟩ : ExecEntry)]) ++
          rest.map (fun q => (⟨q.1, some q.2.1, ⟨.ok q.2.1, some q.2.2⟩⟩ : ExecEntry)) =
          entries ++ (p :: rest).map
            (fun q => (⟨q.1, some q.2.1, ⟨.ok q.2.1, some q.2.2⟩⟩ : ExecEntry)) := by
        simp
      rw [hidx, hent]
    · rw [hlen1, hstep]
      show (processGo reg jobId n (rest.length + rem) (i + 1) _ _).outcome = _
      rw [hout]
      have hidx : i + 1 + rest.length = i + (p :: rest).length := by simp; omega
      have hent : (entries ++ [(⟨p.1, some p.2.1, ⟨.ok p.2.1, some p.2.2⟩⟩ : ExecEntry)]) ++
          rest.map (fun q => (⟨q.1, some q.2.1, ⟨.ok q.2.1, some q.2.2⟩⟩ : ExecEntry)) =
          entries ++ (p :: rest).map
            (fun q => (⟨q.1, some q.2.1, ⟨.ok q.2.1, some q.2.2⟩⟩ : ExecEntry)) := by
        simp
      rw [hidx, hent]

/-- `mkSteps` keeps the length. -/
theorem mkSteps_length (stepNames : List String) : (mkSteps stepNames).length = stepNames.length := by
  simp [mkSteps]

/-- The name of the j-th built step is the j-th name. -/
theorem mkSteps_getD_name (stepNames : List String) (j : Nat) (hj : j < stepNames.length) :
    ((mkSteps stepNames).getD j dfltStep).name = stepNames.getD j "" := by
  have hlen : j < (mkSteps stepNames).length := by
    rw [mkSteps_length]
    exact hj
  rw [List.getD_eq_getElem?_getD, List.getElem?_eq_getElem hlen,
    List.getD_eq_getElem?_getD, List.getElem?_eq_getElem hj]
  simp [mkSteps]

/-- Projections of `process` after a successful acquisition: the loop output
passes through (whether the loop succeeds or throws). -/
theorem process_acquired_proj (reg : Registry) (s : KVStore) (jobId : String) (d0 : JobData)
    (fa : Option (Nat × JsError)) (s1 : KVStore)
    (hacq : acquireLock s (d0.resourceIdentifiers.getD [⟨"user", toString d0.userId, none⟩])
      jobId 30 fa = .ok s1 true) :
    (process reg s jobId d0 fa).compLog =
      (processGo reg jobId d0.steps.length (d0.steps.length - d0.currentStepIndex)
        d0.currentStepIndex d0 (rebuildTrail reg d0.steps d0.currentStepIndex)).compLog
    ∧ (process reg s jobId d0 fa).outcome =
      (processGo reg jobId d0.steps.length (d0.steps.length - d0.currentStepIndex)
        d0.currentStepIndex d0 (rebuildTrail reg d0.steps d0.currentStepIndex)).outcome
    ∧ (process reg s jobId d0 fa).trace =
      (processGo reg jobId d0.steps.length (d0.steps.length - d0.currentStepIndex)
        d0.currentStepIndex d0 (rebuildTrail reg d0.steps d0.currentStepIndex)).trace := by
  simp only [process, hacq]
  match hlo : (processGo reg jobId d0.steps.length (d0.steps.length - d0.currentStepIndex)
      d0.currentStepIndex d0 (rebuildTrail reg d0.steps d0.currentStepIndex)).outcome with
  | .ok u => cases u; exact ⟨rfl, rfl, rfl⟩
  | .error e => exact ⟨rfl, rfl, rfl⟩

/-- C4: reverse compensation order.  For a fresh saga whose first `k` steps
(described by `specl`: name, result, compensate action) execute successfully
and whose next step `failName` throws `e`, the worker invokes exactly the
compensate actions of those `k` steps, each with that step's stored result,
in exact reverse execution order — whatever the compensate actions do
(a throwing compensation does not stop the earlier ones); the failing step's
compensate is never invoked; and the run re-raises `e`. -/
theorem process_compensation_reverse_order (reg : Registry) (s s1 : KVStore)
    (userId : Nat) (jobId createdAt : String) (idemKey : Option String)
    (specl : List (String × JVal × (Option JVal → Except JsError Unit)))
    (failName : String) (sfF : StepExecution) (e : JsError) (d0 : JobData)
    (hd0 : d0 = ⟨userId, mkSteps (specl.map (fun p => p.1) ++ [failName]), 0,
      createdAt, idemKey, none⟩)
    (hreg : ∀ p ∈ specl, reg p.1 = some ⟨.ok p.2.1, some p.2.2⟩)
    (hfail : reg failName = some sfF)
    (hexec : sfF.execute = .error e)
    (hacq : acquireLock s [⟨"user", toString userId, none⟩] jobId 30 none = .ok s1 true) :
    (process reg s jobId d0 none).outcome = .error e
    ∧ (process reg s jobId d0 none).compLog =
        (specl.map (fun p => (p.1, some p.2.1))).reverse
    ∧ (failName ∉ specl.map (fun p => p.1) →
        ∀ v, (failName, v) ∉ (process reg s jobId d0 none).compLog) := by
  subst hd0
  have hnm : (specl.map (fun p => p.1)).length = specl.length := by simp
  have hlen_steps : (mkSteps (specl.map (fun p => p.1) ++ [failName])).length =
      specl.length + 1 := by
    rw [mkSteps_length]
    simp
  have hproj := process_acquired_proj reg s jobId
    ⟨userId, mkSteps (specl.map (fun p => p.1) ++ [failName]), 0, createdAt, idemKey, none⟩
    none s1 hacq
  simp only [hlen_steps, Nat.sub_zero] at hproj
  have hrt : rebuildTrail reg (mkSteps (specl.map (fun p => p.1) ++ [failName])) 0 = [] := rfl
  rw [hrt] at hproj
  obtain ⟨d', hn, hl, hclog, hout⟩ := processGo_succ reg jobId (specl.length + 1) specl 1 0
    ⟨userId, mkSteps (specl.map (fun p => p.1) ++ [failName]), 0, createdAt, idemKey, none⟩
    [] hreg
    (by
      intro j hj
      show ((mkSteps (specl.map (fun p => p.1) ++ [failName])).getD (0 + j) dfltStep).name = _
      rw [Nat.zero_add]
      have hjlt : j < (specl.map (fun p => p.1) ++ [failName]).length := by
        simp
        omega
      rw [mkSteps_getD_name _ j hjlt]
      rw [List.getD_eq_getElem?_getD, List.getElem?_eq_getElem hjlt]
      have hjm : j < (specl.map (fun p => p.1)).length := by
        rw [hnm]
        exact hj
      rw [List.getElem_append_left hjm]
      simp [List.getElem_map])
  simp only [Nat.zero_add, List.nil_append] at hclog hout
  have hnameF : (d'.steps.getD specl.length dfltStep).name = failName := by
    have hname0 := hn specl.length
    show (d'.steps.getD specl.length dfltStep).name = _
    rw [hname0]
    have hlt : specl.length < (specl.map (fun p => p.1) ++ [failName]).length := by
      simp
    show ((mkSteps (specl.map (fun p => p.1) ++ [failName])).getD specl.length dfltStep).name = _
    rw [mkSteps_getD_name _ specl.length hlt]
    rw [List.getD_eq_getElem?_getD, List.getElem?_eq_getElem hlt]
    have hge : (specl.map (fun p => p.1)).length ≤ specl.length := by
      rw [hnm]
    rw [List.getElem_append_right hge]
    simp [hnm]
  have hone : (1 : Nat) = 0 + 1 := rfl
  rw [hone] at hclog hout
  have hinner_out : (processGo reg jobId (specl.length + 1) (0 + 1) specl.length d'
      (specl.map (fun p => ⟨p.1, some p.2.1, ⟨.ok p.2.1, some p.2.2⟩⟩))).outcome = .error e := by
    simp only [processGo, hnameF, hfail, hexec]
  have hinner_log : (processGo reg jobId (specl.length + 1) (0 + 1) specl.length d'
      (specl.map (fun p => ⟨p.1, some p.2.1, ⟨.ok p.2.1, some p.2.2⟩⟩))).compLog =
      (executeCompensation
        ((specl.map (fun p => (⟨p.1, some p.2.1, ⟨.ok p.2.1, some p.2.2⟩⟩ : ExecEntry))).reverse)
        jobId).1 := by
    simp only [processGo, hnameF, hfail, hexec]
  have hcomp : (executeCompensation
      ((specl.map (fun p => (⟨p.1, some p.2.1, ⟨.ok p.2.1, some p.2.2⟩⟩ : ExecEntry))).reverse)
      jobId).1 = (specl.map (fun p => (p.1, some p.2.1))).reverse := by
    rw [executeCompensation_log_all]
    · rw [List.map_reverse, List.map_map]
      rfl
    · intro en hen
      rw [List.mem_reverse] at hen
      obtain ⟨p, _, hp⟩ := List.mem_map.1 hen
      exact ⟨p.2.2, by rw [← hp]⟩
  have houtcome : (process reg s jobId
      ⟨userId, mkSteps (specl.map (fun p => p.1) ++ [failName]), 0, createdAt, idemKey, none⟩
      none).outcome = .error e := by
    rw [hproj.2.1, hout, hinner_out]
  have hlog : (process reg s jobId
      ⟨userId, mkSteps (specl.map (fun p => p.1) ++ [failName]), 0, createdAt, idemKey, none⟩
      none).compLog = (specl.map (fun p => (p.1, some p.2.1))).reverse := by
    rw [hproj.1, hclog, hinner_log, hcomp]
  refine ⟨houtcome, hlog, ?_⟩
  intro hnot v hmem
  rw [hlog, List.mem_reverse] at hmem
  obtain ⟨p, hp, hpe⟩ := List.mem_map.1 hmem
  have : p.1 = failName := congrArg Prod.fst hpe
  exact hnot (this ▸ List.mem_map_of_mem (fun q => q.1) hp)

/-- Witness for C4: steps `stepA`, `stepB` succeed, `failC` throws; the
compensations run as `stepB` then `stepA` (reverse order) even though
`stepA`'s compensation itself throws, and the step error is re-raised. -/
theorem process_compensation_reverse_order_witness :
    (process
      (fun nm =>
        if nm = "stepA" then
          some ⟨.ok "rA", some (fun _ => .error ⟨"boom-compensate", "Error"⟩)⟩
        else if nm = "stepB" then some ⟨.ok "rB", some (fun _ => .ok ())⟩
        else if nm = "failC" then some ⟨.error ⟨"X", "Error"⟩, none⟩
        else none)
      emptyStore "job-9"
      ⟨42, mkSteps (([("stepA", "rA", fun _ => .error ⟨"boom-compensate", "Error"⟩),
          ("stepB", "rB", fun _ => .ok ())] :
            List (String × JVal × (Option JVal → Except JsError Unit))).map (fun p => p.1)
          ++ ["failC"]), 0, "t0", none, none⟩ none).compLog =
      [("stepB", some "rB"), ("stepA", some "rA")]
    ∧ (process
      (fun nm =>
        if nm = "stepA" then
          some ⟨.ok "rA", some (fun _ => .error ⟨"boom-compensate", "Error"⟩)⟩
        else if nm = "stepB" then some ⟨.ok "rB", some (fun _ => .ok ())⟩
        else if nm = "failC" then some ⟨.error ⟨"X", "Error"⟩, none⟩
        else none)
      emptyStore "job-9"
      ⟨42, mkSteps (([("stepA", "rA", fun _ => .error ⟨"boom-compensate", "Error"⟩),
          ("stepB", "rB", fun _ => .ok ())] :
            List (String × JVal × (Option JVal → Except JsError Unit))).map (fun p => p.1)
          ++ ["failC"]), 0, "t0", none, none⟩ none).outcome = .error ⟨"X", "Error"⟩ := by
  have h := process_compensation_reverse_order
    (fun nm =>
      if nm = "stepA" then
        some ⟨.ok "rA", some (fun _ => .error ⟨"boom-compensate", "Error"⟩)⟩
      else if nm = "stepB" then some ⟨.ok "rB", some (fun _ => .ok ())⟩
      else if nm = "failC" then some ⟨.error ⟨"X", "Error"⟩, none⟩
      else none)
    emptyStore (storeSet emptyStore "tx_lock:user_42" ⟨"job-9", 30⟩)
    42 "job-9" "t0" none
    [("stepA", "rA", fun _ => .error ⟨"boom-compensate", "Error"⟩),
     ("stepB", "rB", fun _ => .ok ())]
    "failC" ⟨.error ⟨"X", "Error"⟩, none⟩ ⟨"X", "Error"⟩ _ rfl
    (by
      intro p hp
      simp only [List.mem_cons, List.not_mem_nil, or_false] at hp
      rcases hp with rfl | rfl <;> rfl)
    rfl rfl rfl
  exact ⟨h.2.1, h.1⟩

/-! ### `currentStepIndex` behaviour (claim C5) -/

/-- An `in_progress` update moves `currentStepIndex` to `max cur i`. -/
theorem updateJobStepStatus_cur_in_progress (d : JobData) (i : Nat) (result? : Option JVal) :
    (updateJobStepStatus d i .in_progress result?).currentStepIndex =
      max d.currentStepIndex i := by
  simp [updateJobStepStatus]

/-- A `completed` update advances `currentStepIndex` to `i + 1` unless `i` is
the last step, in which case it only bumps to `max cur i`. -/
theorem updateJobStepStatus_cur_completed (d : JobData) (i : Nat) (result? : Option JVal) :
    (updateJobStepStatus d i .completed result?).currentStepIndex =
      if i < d.steps.length - 1 then i + 1 else max d.currentStepIndex i := by
  by_cases h : i < d.steps.length - 1 <;> simp [updateJobStepStatus, h]

/-- A `failed` update leaves `currentStepIndex` unchanged. -/
theorem updateJobStepStatus_cur_failed (d : JobData) (i : Nat) (result? : Option JVal) :
    (updateJobStepStatus d i .failed result?).currentStepIndex = d.currentStepIndex := by
  simp [updateJobStepStatus]

/-- Along the loop, the persisted `currentStepIndex` values never decrease. -/
theorem processGo_trace_chain (reg : Registry) (jobId : String) (n : Nat) :
    ∀ (rem i : Nat) (d : JobData) (entries : List ExecEntry),
    d.currentStepIndex ≤ i →
    List.Chain' (fun a b => a.currentStepIndex ≤ b.currentStepIndex)
      (d :: (processGo reg jobId n rem i d entries).trace) := by
  intro rem
  induction rem with
  | zero =>
    intro i d entries _
    exact List.chain'_singleton d
  | succ rem ih =>
    intro i d entries hcur
    have hd1 : (updateJobStepStatus d i .in_progress none).currentStepIndex = i := by
      rw [updateJobStepStatus_cur_in_progress]
      omega
    match hr : reg ((d.steps.getD i dfltStep).name) with
    | none =>
      simp only [processGo, hr]
      rw [List.chain'_cons, List.chain'_cons]
      refine ⟨by rw [hd1]; exact hcur, by rw [updateJobStepStatus_cur_failed, hd1], List.chain'_singleton _⟩
    | some sf =>
      match he : sf.execute with
      | .ok r =>
        simp only [processGo, hr, he]
        have hd2 := updateJobStepStatus_cur_completed
          (updateJobStepStatus d i .in_progress none) i (some r)
        rw [hd1] at hd2
        have hd2le : (updateJobStepStatus (updateJobStepStatus d i .in_progress none) i
            .completed (some r)).currentStepIndex ≤ i + 1 := by
          rw [hd2]
          by_cases hlt : i < (updateJobStepStatus d i .in_progress none).steps.length - 1 <;>
            simp [hlt]
        have hchain := ih (i + 1)
          (updateJobStepStatus (updateJobStepStatus d i .in_progress none) i .completed (some r))
          (entries ++ [⟨(d.steps.getD i dfltStep).name, some r, sf⟩]) hd2le
        rw [List.chain'_cons, List.chain'_cons]
        refine ⟨by rw [hd1]; exact hcur, ?_, hchain⟩
        rw [hd1, hd2]
        by_cases hlt : i < (updateJobStepStatus d i .in_progress none).steps.length - 1 <;>
          simp [hlt]
      | .error e2 =>
        simp only [processGo, hr, he]
        rw [List.chain'_cons, List.chain'_cons]
        refine ⟨by rw [hd1]; exact hcur, by rw [updateJobStepStatus_cur_failed, hd1], List.chain'_singleton _⟩

/-- `setStep` at the written index applies the function (in range). -/
theorem setStep_getD_self (l : List JobStepData) (i : Nat) (f : JobStepData → JobStepData)
    (h : i < l.length) : (setStep l i f).getD i dfltStep = f (l.getD i dfltStep) := by
  induction l generalizing i with
  | nil => cases h
  | cons st rest ih =>
    match i with
    | 0 => rfl
    | n + 1 => exact ih n (by simpa using h)

/-- `setStep` leaves other indices unchanged. -/
theorem setStep_getD_other (l : List JobStepData) (i j : Nat) (f : JobStepData → JobStepData)
    (h : j ≠ i) : (setStep l i f).getD j dfltStep = l.getD j dfltStep := by
  induction l generalizing i j with
  | nil => rfl
  | cons st rest ih =>
    match i, j with
    | 0, 0 => exact absurd rfl h
    | 0, m + 1 => rfl
    | n + 1, 0 => rfl
    | n + 1, m + 1 => exact ih n m (by omega)

/-- Status written by `updateJobStepStatus` at the updated index (in range). -/
theorem updateJobStepStatus_status_self (d : JobData) (i : Nat) (status : StepStatus)
    (result? : Option JVal) (h : i < d.steps.length) :
    (((updateJobStepStatus d i status result?).steps).getD i dfltStep).status = status := by
  show ((setStep d.steps i _).getD i dfltStep).status = status
  rw [setStep_getD_self d.steps i _ h]
  match result? with
  | some r => rfl
  | none => rfl

/-- Status at other indices is untouched by `updateJobStepStatus`. -/
theorem updateJobStepStatus_status_other (d : JobData) (i j : Nat) (status : StepStatus)
    (result? : Option JVal) (h : j ≠ i) :
    (((updateJobStepStatus d i status result?).steps).getD j dfltStep).status =
      ((d.steps.getD j dfltStep)).status := by
  show ((setStep d.steps i _).getD j dfltStep).status = _
  rw [setStep_getD_other d.steps i j _ h]

/-- Modelled from the spec wording (for comparison with the code, claim C5):
`currentStepIndex` equals the index of the first step with status `pending`,
or the number of steps when every step is `completed`. -/
def specClaimedCurIndex (d : JobData) : Bool :=
  (match d.steps.findIdx? (fun st => decide (st.status = StepStatus.pending)) with
   | some i => decide (d.currentStepIndex = i)
   | none => false)
  || (decide (∀ st ∈ d.steps, st.status = StepStatus.completed)
      && decide (d.currentStepIndex = d.steps.length))

/-- C5 counterexample: on a fresh one-step saga that completes, neither
persisted update satisfies the claimed characterization — after the
`in_progress` persist there is no pending step and not all are completed, and
after the final `completed` persist `currentStepIndex` stays `0`, not
`len(steps) = 1`. -/
theorem process_currentStepIndex_counterexample :
    ((process (fun nm => if nm = "stepA" then some ⟨.ok "rA", none⟩ else none)
      emptyStore "job-3"
      ⟨7, [⟨"stepA", .pending, 0, none⟩], 0, "t0", none, none⟩ none).trace.all
        specClaimedCurIndex) = false := by
  decide

/-- C5 (amended): across the persisted updates of one worker run,
`currentStepIndex` is monotonically non-decreasing; an `in_progress` update
at step `i` sets it to `i` (the index of the step now in progress, not of the
first pending step); a `completed` update at a non-final step sets it to
`i + 1`, which is then the index of the first `pending` step (earlier steps
non-pending, step `i` completed, step `i + 1` pending); and when the final
step completes it remains at `len(steps) - 1`, never reaching `len(steps)`. -/
theorem process_currentStepIndex_amended :
    (∀ (reg : Registry) (s : KVStore) (jobId : String) (d0 : JobData)
        (fa : Option (Nat × JsError)),
      List.Chain' (fun a b => a.currentStepIndex ≤ b.currentStepIndex)
        (d0 :: (process reg s jobId d0 fa).trace))
    ∧ (∀ (d : JobData) (i : Nat) (result? : Option JVal), d.currentStepIndex ≤ i →
        (updateJobStepStatus d i .in_progress result?).currentStepIndex = i)
    ∧ (∀ (d : JobData) (i : Nat) (result? : Option JVal), i < d.steps.length - 1 →
        (updateJobStepStatus d i .completed result?).currentStepIndex = i + 1)
    ∧ (∀ (d : JobData) (i : Nat) (result? : Option JVal), d.currentStepIndex ≤ i →
        ¬ i < d.steps.length - 1 →
        (updateJobStepStatus d i .completed result?).currentStepIndex = i)
    ∧ (∀ (d : JobData) (i : Nat) (result? : Option JVal), i + 1 < d.steps.length →
        (∀ j, j < i → ((d.steps.getD j dfltStep)).status ≠ .pending) →
        ((d.steps.getD (i + 1) dfltStep)).status = .pending →
        (∀ j, j ≤ i →
          (((updateJobStepStatus d i .completed result?).steps.getD j dfltStep)).status ≠
            .pending)
        ∧ (((updateJobStepStatus d i .completed result?).steps.getD (i + 1) dfltStep)).status =
            .pending) := by
  refine ⟨?_, ?_, ?_, ?_, ?_⟩
  · intro reg s jobId d0 fa
    match hres : acquireLock s
        (d0.resourceIdentifiers.getD [⟨"user", toString d0.userId, none⟩]) jobId 30 fa with
    | .err s1 e =>
      have : (process reg s jobId d0 fa).trace = [] := by
        simp only [process, hres]
      rw [this]
      exact List.chain'_singleton d0
    | .ok s1 false =>
      have : (process reg s jobId d0 fa).trace = [] := by
        simp only [process, hres]
      rw [this]
      exact List.chain'_singleton d0
    | .ok s1 true =>
      have hproj := process_acquired_proj reg s jobId d0 fa s1 hres
      rw [hproj.2.2]
      exact processGo_trace_chain reg jobId d0.steps.length
        (d0.steps.length - d0.currentStepIndex) d0.currentStepIndex d0
        (rebuildTrail reg d0.steps d0.currentStepIndex) le_rfl
  · intro d i result? hcur
    rw [updateJobStepStatus_cur_in_progress]
    omega
  · intro d i result? hlt
    rw [updateJobStepStatus_cur_completed, if_pos hlt]
  · intro d i result? hcur hlt
    rw [updateJobStepStatus_cur_completed, if_neg hlt]
    omega
  · intro d i result? hlen hbefore hnext
    refine ⟨?_, ?_⟩
    · intro j hj
      by_cases hji : j = i
      · subst hji
        rw [updateJobStepStatus_status_self d j .completed result? (by omega)]
        intro hcontra
        cases hcontra
      · rw [updateJobStepStatus_status_other d i j .completed result? hji]
        exact hbefore j (by omega)
    · rw [updateJobStepStatus_status_other d i (i + 1) .completed result? (by omega)]
      exact hnext

/-- Witness for the amended C5: completing the middle step of a three-step
job advances `currentStepIndex` to `2`, the first pending index. -/
theorem process_currentStepIndex_amended_witness :
    (updateJobStepStatus
      ⟨7, [⟨"a", .completed, 0, some "ra"⟩, ⟨"b", .in_progress, 1, none⟩,
        ⟨"c", .pending, 2, none⟩], 1, "t0", none, none⟩
      1 .completed (some "rb")).currentStepIndex = 2
    ∧ ((updateJobStepStatus
      ⟨7, [⟨"a", .completed, 0, some "ra"⟩, ⟨"b", .in_progress, 1, none⟩,
        ⟨"c", .pending, 2, none⟩], 1, "t0", none, none⟩
      1 .completed (some "rb")).steps.getD 2 dfltStep).status = .pending := by
  constructor
  · exact process_currentStepIndex_amended.2.2.1
      ⟨7, [⟨"a", .completed, 0, some "ra"⟩, ⟨"b", .in_progress, 1, none⟩,
        ⟨"c", .pending, 2, none⟩], 1, "t0", none, none⟩ 1 (some "rb") (by decide)
  · exact (process_currentStepIndex_amended.2.2.2.2
      ⟨7, [⟨"a", .completed, 0, some "ra"⟩, ⟨"b", .in_progress, 1, none⟩,
        ⟨"c", .pending, 2, none⟩], 1, "t0", none, none⟩ 1 (some "rb") (by decide)
      (by intro j hj; interval_cases j; decide) (by decide)).2

/-! ### Coordinator (`SimpleTransactionManager.execute`) -/

/-- A job enqueued on the Transaction queue. -/
structure SagaQueueItem where
  jobId : String
  data : JobData

/-- Manager-side state: the redis keyspace and the queue contents. -/
structure ManagerState where
  redis : KVStore
  queue : List SagaQueueItem

/-- `SimpleTransactionManager.execute`: default the resource identifiers to
the user lock, return the stored jobId without enqueueing when the
idempotency binding `idempotent:<key>` exists, otherwise enqueue the fresh
payload (all steps pending, `currentStepIndex = 0`, `attempts = 1` at the
queue level) and, when an idempotency key was given, write the binding with
TTL 3600; the queue-assigned id `newJobId` is returned. -/
def executeTx (st : ManagerState) (userId : Nat) (stepNames : List String)
    (resourceIdentifiers : Option (List ResourceIdentifier)) (idempotencyKey : Option String)
    (newJobId : String) (now : String) : ManagerState × String :=
  let finalResourceIdentifiers :=
    resourceIdentifiers.getD [⟨"user", toString userId, none⟩]
  let existing := match idempotencyKey with
    | some key => st.redis ("idempotent:" ++ key)
    | none => none
  match existing with
  | some e => (st, e.value)
  | none =>
    let payload : JobData :=
      ⟨userId, mkSteps stepNames, 0, now, idempotencyKey, some finalResourceIdentifiers⟩
    let queue2 := st.queue ++ [⟨newJobId, payload⟩]
    let redis2 := match idempotencyKey with
      | some key => storeSet st.redis ("idempotent:" ++ key) ⟨newJobId, 3600⟩
      | none => st.redis
    (⟨redis2, queue2⟩, newJobId)

/-- C6: idempotency of `execute`.  When the binding exists the stored jobId
is returned with no enqueue and no state change; on a miss the job is
enqueued once and the binding `idempotent:<key> → jobId` is written with TTL
3600; hence two calls with the same key return the same jobId and only the
first enqueues. -/
theorem executeTx_idempotent (st : ManagerState) (userId userId2 : Nat)
    (stepNames stepNames2 : List String)
    (resourceIdentifiers resourceIdentifiers2 : Option (List ResourceIdentifier))
    (key jobId1 jobId2 now1 now2 : String)
    (hmiss : st.redis ("idempotent:" ++ key) = none) :
    (∀ st' e, st'.redis ("idempotent:" ++ key) = some e →
      executeTx st' userId stepNames resourceIdentifiers (some key) jobId1 now1 = (st', e.value))
    ∧ (executeTx st userId stepNames resourceIdentifiers (some key) jobId1 now1).2 = jobId1
    ∧ (executeTx st userId stepNames resourceIdentifiers (some key) jobId1 now1).1.queue.length =
        st.queue.length + 1
    ∧ (executeTx st userId stepNames resourceIdentifiers (some key) jobId1 now1).1.redis
        ("idempotent:" ++ key) = some ⟨jobId1, 3600⟩
    ∧ (executeTx
        (executeTx st userId stepNames resourceIdentifiers (some key) jobId1 now1).1
        userId2 stepNames2 resourceIdentifiers2 (some key) jobId2 now2).2 = jobId1
    ∧ (executeTx
        (executeTx st userId stepNames resourceIdentifiers (some key) jobId1 now1).1
        userId2 stepNames2 resourceIdentifiers2 (some key) jobId2 now2).1.queue.length =
        st.queue.length + 1 := by
  have hhit : ∀ (st' : ManagerState) (e : KVEntry), st'.redis ("idempotent:" ++ key) = some e →
      executeTx st' userId stepNames resourceIdentifiers (some key) jobId1 now1 = (st', e.value) := by
    intro st' e he
    simp only [executeTx, he]
  have hrun1 : executeTx st userId stepNames resourceIdentifiers (some key) jobId1 now1 =
      (⟨storeSet st.redis ("idempotent:" ++ key) ⟨jobId1, 3600⟩,
        st.queue ++ [⟨jobId1, ⟨userId, mkSteps stepNames, 0, now1, some key,
          some (resourceIdentifiers.getD [⟨"user", toString userId, none⟩])⟩⟩]⟩, jobId1) := by
    simp only [executeTx, hmiss]
  have hbind : (executeTx st userId stepNames resourceIdentifiers (some key) jobId1 now1).1.redis
      ("idempotent:" ++ key) = some ⟨jobId1, 3600⟩ := by
    rw [hrun1]
    simp [storeSet]
  have hrun2 : executeTx
      (executeTx st userId stepNames resourceIdentifiers (some key) jobId1 now1).1
      userId2 stepNames2 resourceIdentifiers2 (some key) jobId2 now2 =
      ((executeTx st userId stepNames resourceIdentifiers (some key) jobId1 now1).1, jobId1) := by
    generalize hg : (executeTx st userId stepNames resourceIdentifiers (some key) jobId1 now1).1 = st1
    rw [hg] at hbind
    simp only [executeTx, hbind]
  refine ⟨hhit, by rw [hrun1], by rw [hrun1]; simp, hbind, by rw [hrun2], by rw [hrun2, hrun1]; simp⟩

/-- Witness for C6 on a concrete pair of calls sharing the key `K`. -/
theorem executeTx_idempotent_witness :
    (executeTx ⟨emptyStore, []⟩ 5 ["validate", "charge"] none (some "K") "job-A" "t1").2 = "job-A"
    ∧ (executeTx
        (executeTx ⟨emptyStore, []⟩ 5 ["validate", "charge"] none (some "K") "job-A" "t1").1
        5 ["validate", "charge"] none (some "K") "job-B" "t2").2 = "job-A"
    ∧ (executeTx
        (executeTx ⟨emptyStore, []⟩ 5 ["validate", "charge"] none (some "K") "job-A" "t1").1
        5 ["validate", "charge"] none (some "K") "job-B" "t2").1.queue.length = 1 := by
  have h := executeTx_idempotent ⟨emptyStore, []⟩ 5 5 ["validate", "charge"]
    ["validate", "charge"] none none "K" "job-A" "job-B" "t1" "t2" rfl
  exact ⟨h.2.1, h.2.2.2.2.1, h.2.2.2.2.2⟩
